import Mathlib

set_option maxRecDepth 8000

/- Shallow embedding of the py-logic classical-logic library
   (src/pylogic/fol.py and src/pylogic/propositional.py), together with
   theorems settling the specification's claims against the embedded code.

   Conventions used throughout:
   * Python dicts are insertion-ordered association lists (unique keys; an
     update replaces a value in place, a new key is appended at the end).
   * Python exceptions are modelled with Except; recursion that is not
     structurally terminating in the source carries explicit fuel, and an
     exhausted-fuel outcome is kept distinct from every genuine result.
   * Python None results are modelled with Option. -/

/-- TermType from fol.py: a first-order term is a constant or a variable. -/
inductive TermType
  | CONSTANT
  | VARIABLE
  deriving DecidableEq, Repr

/-- Term from fol.py: an identifier plus a TermType; Term.__eq__ compares both. -/
structure Term where
  identifier : String
  type : TermType
  deriving DecidableEq, Repr

/-- Substitution from fol.py, modelled as an insertion-ordered association list
    mirroring the underlying Python dict. -/
abbrev Subst := List (Term × Term)

/-- Dictionary lookup in a substitution (Python: k in theta, theta.get(k), theta[k]). -/
def dlookup : Subst → Term → Option Term
  | [], _ => Option.none
  | p :: rest, k => if p.1 = k then some p.2 else dlookup rest k

/-- Dictionary insertion with Python dict.update semantics for a single key:
    replaces the value in place when the key is present, appends otherwise. -/
def dinsert : Subst → Term → Term → Subst
  | [], k, v => [(k, v)]
  | p :: rest, k, v => if p.1 = k then (k, v) :: rest else p :: dinsert rest k v

/-- Substitution.add_substitutions from fol.py, specialised to the single-binding
    maps the library passes it: a fresh substitution with the binding added, the
    new binding winning on key collision. -/
def add_substitutions (theta : Subst) (k v : Term) : Subst := dinsert theta k v

/-- Function compose from fol.py: the union of the two mappings with the second
    substitution's entries overriding the first's on key collision. -/
def compose (theta1 theta2 : Subst) : Subst :=
  theta2.foldl (fun acc p => dinsert acc p.1 p.2) theta1

/-- Error kinds raised by the embedded Python code, plus a marker for exhausted
    recursion fuel (a computation the source would still be running). -/
inductive PyErr
  | constantAsVariable
  | badHornClauseFOL
  | attributeError
  | fuelOut
  deriving DecidableEq, Repr

/-- Predicate from fol.py: identifier, argument terms and a negation flag;
    Predicate.__eq__ compares all three. -/
structure Predicate where
  identifier : String
  args : List Term
  is_negated : Bool
  deriving DecidableEq, Repr

/-- Predicate.__invert__ from fol.py: flips the negation flag. -/
def pinvert (p : Predicate) : Predicate := ⟨p.identifier, p.args, !p.is_negated⟩

/-- Argument traversal of Substitution.substitute from fol.py: each argument is
    passed through _arg_exception_handler (raising ConstantAsVariableException when
    a constant argument occurs as a key of the map) and then looked up with the
    argument itself as default. -/
def substituteArgs (theta : Subst) : List Term → Except PyErr (List Term)
  | [] => .ok []
  | a :: rest =>
    if (dlookup theta a).isSome ∧ a.type = TermType.CONSTANT then
      .error .constantAsVariable
    else
      match substituteArgs theta rest with
      | .error e => .error e
      | .ok r => .ok ((dlookup theta a).getD a :: r)

/-- Substitution.substitute from fol.py: substitutes into the arguments and rebuilds
    the predicate as Predicate(pred.identifier, args), so the result always carries
    the constructor's default negation flag False. -/
def substitute (theta : Subst) (p : Predicate) : Except PyErr Predicate :=
  match substituteArgs theta p.args with
  | .error e => .error e
  | .ok r => .ok ⟨p.identifier, r, false⟩

/-- Argument shape of unify from fol.py: a single term or a list of terms. -/
inductive Uarg
  | term (t : Term)
  | args (ts : List Term)
  deriving DecidableEq, Repr

mutual

/-- Function unify from fol.py under explicit recursion fuel: the outer none is
    exhausted fuel, some none is the Python None result (failure), and
    some (some theta) is success. The source recursion is not structurally
    terminating (unify_var chases bindings through theta), hence the fuel. -/
def unify : Nat → Uarg → Uarg → Option Subst → Option (Option Subst)
  | 0, _, _, _ => Option.none
  | _ + 1, _, _, Option.none => some Option.none
  | f + 1, .args xs, .args ys, some theta =>
    if xs.length ≠ ys.length then some Option.none
    else if xs = ys then some (some theta)
    else
      match xs, ys with
      | x :: xs', y :: ys' =>
        match unify f (.term x) (.term y) (some theta) with
        | Option.none => Option.none
        | some r => unify f (.args xs') (.args ys') r
      | _, _ => some Option.none
  | _ + 1, .args _, .term _, some _ => some Option.none
  | _ + 1, .term _, .args _, some _ => some Option.none
  | f + 1, .term x, .term y, some theta =>
    if x = y then some (some theta)
    else if x.type = TermType.VARIABLE then unify_var f x y (some theta)
    else if y.type = TermType.VARIABLE then unify_var f y x (some theta)
    else some Option.none

/-- Function unify_var from fol.py under the same fuel discipline. -/
def unify_var : Nat → Term → Term → Option Subst → Option (Option Subst)
  | 0, _, _, _ => Option.none
  | f + 1, v, x, some theta =>
    match dlookup theta v with
    | some u => unify f (.term u) (.term x) (some theta)
    | Option.none =>
      match dlookup theta x with
      | some u => unify f (.term v) (.term u) (some theta)
      | Option.none => some (some (add_substitutions theta v x))
  | _ + 1, v, x, Option.none => some (some (add_substitutions [] v x))

end

/-- Shorthand for a variable term. -/
def tVar (s : String) : Term := ⟨s, TermType.VARIABLE⟩

/-- Shorthand for a constant term. -/
def tConst (s : String) : Term := ⟨s, TermType.CONSTANT⟩


/-- Consequent actually stored in a first-order Horn clause: a predicate or a
    Python boolean. -/
inductive Consequent
  | pred (p : Predicate)
  | bool (b : Bool)
  deriving DecidableEq, Repr

/-- Consequent argument of the HornClauseFOL constructor, Python
    Optional[Union[Predicate, bool]]. -/
inductive ConsequentArg
  | none
  | pred (p : Predicate)
  | bool (b : Bool)
  deriving DecidableEq, Repr

/-- Lexicographic code-point comparison of character lists, the order Python uses on
    strings (a proper prefix sorts first). -/
def charListLe : List Char → List Char → Bool
  | [], _ => true
  | _ :: _, [] => false
  | a :: as, b :: bs =>
    if a.toNat < b.toNat then true
    else if b.toNat < a.toNat then false
    else charListLe as bs

/-- Python string comparison s1 <= s2. -/
def pyStrLe (a b : String) : Bool := charListLe a.data b.data

/-- Stable insertion of a predicate into a list already sorted by identifier: the
    new element goes after existing elements with keys less than or equal to its
    own, matching the stability of Python sorted. -/
def insertByIdentifier (p : Predicate) : List Predicate → List Predicate
  | [] => [p]
  | q :: rest =>
    if pyStrLe q.identifier p.identifier then q :: insertByIdentifier p rest
    else p :: q :: rest

/-- Python sorted(antecedents, key=lambda x: x.identifier): stable ascending sort. -/
def sortByIdentifier (l : List Predicate) : List Predicate :=
  l.foldl (fun acc p => insertByIdentifier p acc) []

/-- HornClauseFOL value: the stored (sorted) antecedent list plus the consequent. -/
structure HornClauseFOL where
  antecedents : List Predicate
  consequent : Consequent
  deriving DecidableEq, Repr

/-- HornClauseFOL.__init__ from fol.py: sorts the antecedents by identifier, rejects
    negated antecedents with BadHornClauseFOL, then normalises: a single antecedent
    with omitted consequent yields consequent True; a negated consequent yields
    consequent False with the positive form appended to the antecedents; an omitted
    consequent otherwise yields False; anything else is stored as given. -/
def mkHornClauseFOL (antecedents : List Predicate) (consequent : ConsequentArg) :
    Except PyErr HornClauseFOL :=
  let sorted := sortByIdentifier antecedents
  if sorted.any (fun a => a.is_negated) then .error .badHornClauseFOL
  else if sorted.length = 1 ∧ consequent = ConsequentArg.none then
    .ok ⟨sorted, .bool true⟩
  else
    match consequent with
    | .pred c =>
      if c.is_negated then .ok ⟨sorted ++ [pinvert c], .bool false⟩
      else .ok ⟨sorted, .pred c⟩
    | .none => .ok ⟨sorted, .bool false⟩
    | .bool b => .ok ⟨sorted, .bool b⟩

/-- HornClauseFOL.__eq__ from fol.py: after the isinstance check it compares ONLY the
    consequents; the antecedent lists are not consulted. Comparing a predicate
    consequent with a boolean one raises in Python and is not exercised by the
    claims; the embedding makes that case unequal. -/
def hornClauseFOLEq (h1 h2 : HornClauseFOL) : Bool :=
  match h1.consequent, h2.consequent with
  | .pred p, .pred q => decide (p = q)
  | .bool a, .bool b => a == b
  | _, _ => false

/-- Python str of a term: its identifier. -/
def termStr (t : Term) : String := t.identifier

/-- Python str of a predicate: optional negation sign, identifier, argument list. -/
def predStr (p : Predicate) : String :=
  (if p.is_negated then "¬" else "") ++ p.identifier ++ "(" ++
    String.intercalate ", " (p.args.map termStr) ++ ")"

/-- Python str of a stored consequent (str(True) is "True"). -/
def consequentStr : Consequent → String
  | .pred p => predStr p
  | .bool true => "True"
  | .bool false => "False"

/-- Stable insertion by rendered string, used by HornClauseFOL.__str__. -/
def insertByStr (p : Predicate) : List Predicate → List Predicate
  | [] => [p]
  | q :: rest =>
    if pyStrLe (predStr q) (predStr p) then q :: insertByStr p rest
    else p :: q :: rest

/-- HornClauseFOL.__str__ from fol.py: antecedents sorted by their string form and
    joined, then the consequent. HornClauseFOL.__hash__ hashes exactly this string,
    so clauses with different strings have (generically) different hashes. -/
def hornClauseFOLStr (h : HornClauseFOL) : String :=
  let ants := h.antecedents.foldl (fun acc p => insertByStr p acc) []
  if ants.isEmpty then consequentStr h.consequent
  else String.intercalate " ^ " (ants.map predStr) ++ " => " ++
    consequentStr h.consequent

/-- Seen map threaded by standardize_predicate: original variable identifier to the
    counter value assigned at its first occurrence. -/
abbrev SeenMap := List (String × Nat)

/-- Lookup in the seen map (Python: arg.identifier in seen / seen[...]). -/
def seenLookup : SeenMap → String → Option Nat
  | [], _ => Option.none
  | p :: rest, k => if p.1 = k then some p.2 else seenLookup rest k

/-- Argument walk of standardize_predicate from fol.py: a variable seen before is
    renamed with its recorded index, a fresh variable takes the current counter
    (which is then incremented), and constants are rebuilt unchanged. -/
def standardizeArgs (counter : Nat) (seen : SeenMap) :
    List Term → List Term × Nat × SeenMap
  | [] => ([], counter, seen)
  | a :: rest =>
    if a.type = TermType.VARIABLE then
      match seenLookup seen a.identifier with
      | some v =>
        let (r, c', s') := standardizeArgs counter seen rest
        (⟨a.identifier ++ toString v, a.type⟩ :: r, c', s')
      | Option.none =>
        let (r, c', s') :=
          standardizeArgs (counter + 1) (seen ++ [(a.identifier, counter)]) rest
        (⟨a.identifier ++ toString counter, a.type⟩ :: r, c', s')
    else
      let (r, c', s') := standardizeArgs counter seen rest
      (⟨a.identifier, a.type⟩ :: r, c', s')

/-- Function standardize_predicate from fol.py on an actual predicate: renames the
    arguments and rebuilds the predicate as Predicate(pred.identifier, args), with
    the constructor's default negation flag False. -/
def standardize_predicate (p : Predicate) (counter : Nat) (seen : SeenMap) :
    Predicate × Nat × SeenMap :=
  let (r, c', s') := standardizeArgs counter seen p.args
  (⟨p.identifier, r, false⟩, c', s')

/-- Function standardize_predicate on a consequent: booleans pass through unchanged. -/
def standardizeConsequent (c : Consequent) (counter : Nat) (seen : SeenMap) :
    Consequent × Nat × SeenMap :=
  match c with
  | .pred p =>
    let (q, c', s') := standardize_predicate p counter seen
    (.pred q, c', s')
  | .bool b => (.bool b, counter, seen)

/-- Function standardize_variables from fol.py: renames the antecedents and then the
    consequent with a shared seen map and threaded counter, rebuilding the clause
    through the HornClauseFOL constructor. -/
def standardize_variables (rule : HornClauseFOL) (counter : Nat) :
    Except PyErr (HornClauseFOL × Nat) :=
  let step := rule.antecedents.foldl
    (fun (acc : List Predicate × Nat × SeenMap) p =>
      let (q, c', s') := standardize_predicate p acc.2.1 acc.2.2
      (acc.1 ++ [q], c', s'))
    ([], counter, [])
  let (newCons, c2, _) := standardizeConsequent rule.consequent step.2.1 step.2.2
  match mkHornClauseFOL step.1
      (match newCons with
       | .pred p => ConsequentArg.pred p
       | .bool b => ConsequentArg.bool b) with
  | .error e => .error e
  | .ok hc => .ok (hc, c2)

mutual

/-- Function fol_bc_ask from fol.py under recursion fuel: empty goal list returns the
    singleton answer, otherwise the substituted first goal is matched against every
    clause of the knowledge base. -/
def fol_bc_ask : Nat → List HornClauseFOL → List Predicate → Subst →
    Except PyErr (List Subst)
  | 0, _, _, _ => .error .fuelOut
  | f + 1, kb, goals, theta =>
    match goals with
    | [] => .ok [theta]
    | g :: rest =>
      match substitute theta g with
      | .error e => .error e
      | .ok q' => folBcLoop f kb kb 0 q' rest theta []

/-- Loop body of fol_bc_ask: walks the knowledge base in order, threading the
    standardisation counter across clauses and prepending each clause's answers to
    the accumulator (Python: answers = fol_bc_ask(...) + answers). A clause whose
    standardised consequent is a boolean raises AttributeError in the source (it has
    no identifier attribute). -/
def folBcLoop : Nat → List HornClauseFOL → List HornClauseFOL → Nat → Predicate →
    List Predicate → Subst → List Subst → Except PyErr (List Subst)
  | 0, _, _, _, _, _, _, _ => .error .fuelOut
  | _ + 1, _, [], _, _, _, _, answers => .ok answers
  | f + 1, kb, r :: rs, counter, q', rest, theta, answers =>
    match standardize_variables r counter with
    | .error e => .error e
    | .ok (r', counter') =>
      match r'.consequent with
      | .bool _ => .error .attributeError
      | .pred q =>
        if q'.identifier = q.identifier then
          match unify f (.args q.args) (.args q'.args) (some []) with
          | Option.none => .error .fuelOut
          | some Option.none => folBcLoop f kb rs counter' q' rest theta answers
          | some (some theta') =>
            match fol_bc_ask f kb (r'.antecedents ++ rest) (compose theta' theta) with
            | .error e => .error e
            | .ok res => folBcLoop f kb rs counter' q' rest theta (res ++ answers)
        else folBcLoop f kb rs counter' q' rest theta answers

end

/-- Constant West of the criminal knowledge base (examples/criminal.py). -/
def west : Term := tConst "West"

/-- Constant Nono of the criminal knowledge base. -/
def nono : Term := tConst "Nono"

/-- Constant M1 of the criminal knowledge base. -/
def m1 : Term := tConst "M1"

/-- Constant America of the criminal knowledge base. -/
def america : Term := tConst "America"

/-- Helper building a Horn clause through the constructor; the default is never
    reached for the clause lists used below (see the example after criminalKb). -/
def hcOf (l : List Predicate) (c : ConsequentArg) : HornClauseFOL :=
  (mkHornClauseFOL l c).toOption.getD ⟨[], .bool false⟩

/-- Raw antecedent/consequent inputs of the criminal knowledge base, exactly as
    built in examples/criminal.py (facts as HornClauseFOL([], predicate)). -/
def criminalRaw : List (List Predicate × ConsequentArg) :=
  [ ([⟨"American", [tVar "x"], false⟩, ⟨"Weapon", [tVar "y"], false⟩,
      ⟨"Sells", [tVar "x", tVar "y", tVar "z"], false⟩,
      ⟨"Hostile", [tVar "z"], false⟩],
     .pred ⟨"Criminal", [tVar "x"], false⟩),
    ([], .pred ⟨"Owns", [nono, m1], false⟩),
    ([], .pred ⟨"Missile", [m1], false⟩),
    ([⟨"Missile", [tVar "x"], false⟩, ⟨"Owns", [nono, tVar "x"], false⟩],
     .pred ⟨"Sells", [west, tVar "x", nono], false⟩),
    ([⟨"Missile", [tVar "x"], false⟩], .pred ⟨"Weapon", [tVar "x"], false⟩),
    ([⟨"Enemy", [tVar "x", america], false⟩],
     .pred ⟨"Hostile", [tVar "x"], false⟩),
    ([], .pred ⟨"American", [west], false⟩),
    ([], .pred ⟨"Enemy", [nono, america], false⟩) ]

/-- Criminal knowledge base as a list of constructed Horn clauses. -/
def criminalKb : List HornClauseFOL := criminalRaw.map (fun d => hcOf d.1 d.2)


/-- Goal Criminal(West) of the criminal example. -/
def criminalGoal : Predicate := ⟨"Criminal", [west], false⟩

/-- Answer substitution computed by fol_bc_ask on the criminal knowledge base. -/
def criminalAnswer : Subst :=
  [(tVar "x4", m1), (tVar "y2", m1), (tVar "x3", tVar "y2"), (tVar "z1", nono),
   (tVar "x5", tVar "z1"), (tVar "x0", west)]

/-- State of fol_fc_ask's while loop: the known facts list, the parallel identifier
    list, and the no_new_knowledge flag (initialised False at line 403 of fol.py and,
    as in the source, never written afterwards). -/
structure FcState where
  knownFacts : List Predicate
  knownIds : List String
  noNewKnowledge : Bool
  deriving DecidableEq, Repr

/-- Outcome of one full pass of fol_fc_ask over the rules: an early return with the
    unifier of the derived query, or continuation with the updated state. -/
inductive FcOut
  | ret (theta : Subst)
  | cont (st : FcState)
  deriving DecidableEq, Repr

/-- Partition step at the top of fol_fc_ask: clauses with no antecedents contribute
    their consequent (and its identifier, which raises AttributeError for a boolean
    consequent) to the known facts; all other clauses form the actual rule base. -/
def folFcPartition : List HornClauseFOL →
    Except PyErr (List Predicate × List String × List HornClauseFOL)
  | [] => .ok ([], [], [])
  | hc :: rest =>
    if hc.antecedents.length = 0 then
      match hc.consequent with
      | .bool _ => .error .attributeError
      | .pred p =>
        match folFcPartition rest with
        | .error e => .error e
        | .ok (fs, ids, rules) => .ok (p :: fs, p.identifier :: ids, rules)
    else
      match folFcPartition rest with
      | .error e => .error e
      | .ok (fs, ids, rules) => .ok (fs, ids, hc :: rules)

/-- Inner fact loop of fol_fc_ask for one antecedent: theta is reassigned to
    unify(fact.args, antecedent.args, theta) for every known fact sharing the
    antecedent's identifier (a None theta then propagates through unify). -/
def fcFactFold (uf : Nat) (a : Predicate) :
    List (Predicate × String) → Option Subst → Except PyErr (Option Subst)
  | [], theta => .ok theta
  | (fact, ident) :: rest, theta =>
    if a.identifier = ident then
      match unify uf (.args fact.args) (.args a.args) theta with
      | Option.none => .error .fuelOut
      | some theta' => fcFactFold uf a rest theta'
    else fcFactFold uf a rest theta

/-- Antecedent loop of fol_fc_ask: folds fcFactFold over all antecedents starting
    from the empty substitution. -/
def fcComputeTheta (uf : Nat) (st : FcState) :
    List Predicate → Option Subst → Except PyErr (Option Subst)
  | [], theta => .ok theta
  | a :: rest, theta =>
    match fcFactFold uf a (st.knownFacts.zip st.knownIds) theta with
    | .error e => .error e
    | .ok theta' => fcComputeTheta uf st rest theta'

/-- Groundedness check of fol_fc_ask: every antecedent, after substitution, must
    have no variable argument (substitution itself can raise). -/
def fcSatisfied (theta : Subst) : List Predicate → Except PyErr Bool
  | [] => .ok true
  | a :: rest =>
    match substitute theta a with
    | .error e => .error e
    | .ok p' =>
      if p'.args.any (fun arg => arg.type = TermType.VARIABLE) then .ok false
      else fcSatisfied theta rest

/-- Firing step of fol_fc_ask for one standardised rule, given the computed theta:
    when theta is a non-empty substitution and the rule is grounded, the substituted
    consequent is appended to the pass-local new list if novel, and a consequent
    matching the query's identifier is unified with the query for an early return.
    Yields either the early-return unifier or the updated new list. -/
def fcRuleFire (uf : Nat) (alpha : Predicate) (st : FcState) (r : HornClauseFOL)
    (thetaOpt : Option Subst) (new : List Predicate) :
    Except PyErr (Subst ⊕ List Predicate) :=
  match thetaOpt with
  | Option.none => .ok (.inr new)
  | some theta =>
    if theta.length = 0 then .ok (.inr new)
    else
      match fcSatisfied theta r.antecedents with
      | .error e => .error e
      | .ok false => .ok (.inr new)
      | .ok true =>
        match r.consequent with
        | .bool _ => .error .attributeError
        | .pred c =>
          match substitute theta c with
          | .error e => .error e
          | .ok q' =>
            let new' := if q' ∈ st.knownFacts then new else new ++ [q']
            if q'.identifier = alpha.identifier then
              match unify uf (.args q'.args) (.args alpha.args) (some theta) with
              | Option.none => .error .fuelOut
              | some Option.none => .ok (.inr new')
              | some (some phi) => .ok (.inl phi)
            else .ok (.inr new')

/-- Drain of the pass-local new list into the known facts (run after every rule):
    novel facts are appended together with their identifiers; the no_new_knowledge
    flag is untouched. -/
def fcAbsorbNew (st : FcState) (new : List Predicate) : FcState :=
  new.foldl
    (fun s n =>
      if n ∈ s.knownFacts then s
      else { s with knownFacts := s.knownFacts ++ [n],
                    knownIds := s.knownIds ++ [n.identifier] })
    st

/-- One pass of fol_fc_ask over the rules: each rule is standardised with the
    pass-local counter, its theta computed against the known facts, fired, and the
    new list drained into the state. -/
def folFcRules (uf : Nat) (alpha : Predicate) :
    List HornClauseFOL → Nat → List Predicate → FcState → Except PyErr FcOut
  | [], _, _, st => .ok (.cont st)
  | r :: rs, counter, new, st =>
    match standardize_variables r counter with
    | .error e => .error e
    | .ok (r', counter') =>
      match fcComputeTheta uf st r'.antecedents (some []) with
      | .error e => .error e
      | .ok thetaOpt =>
        match fcRuleFire uf alpha st r' thetaOpt new with
        | .error e => .error e
        | .ok (.inl phi) => .ok (.ret phi)
        | .ok (.inr new') => folFcRules uf alpha rs counter' new' (fcAbsorbNew st new')

/-- While loop of fol_fc_ask: the loop breaks (and the function returns None) only
    when the no_new_knowledge flag is set after a pass; passes is the fuel bounding
    the number of iterations. -/
def folFcLoop (uf : Nat) (rules : List HornClauseFOL) (alpha : Predicate) :
    Nat → FcState → Except PyErr (Option Subst)
  | 0, _ => .error .fuelOut
  | f + 1, st =>
    match folFcRules uf alpha rules 0 [] st with
    | .error e => .error e
    | .ok (.ret phi) => .ok (some phi)
    | .ok (.cont st') =>
      if st'.noNewKnowledge then .ok Option.none else folFcLoop uf rules alpha f st'

/-- Function fol_fc_ask from fol.py: partition into facts and rules, then iterate
    passes; uf is the fuel for unify's recursion, passes bounds the while loop. -/
def fol_fc_ask (uf passes : Nat) (kb : List HornClauseFOL) (alpha : Predicate) :
    Except PyErr (Option Subst) :=
  match folFcPartition kb with
  | .error e => .error e
  | .ok (fs, ids, rules) => folFcLoop uf rules alpha passes ⟨fs, ids, false⟩

/-- Observation distinguishing the source's return-None exit from every other
    outcome of fol_fc_ask (answers, exceptions, exhausted fuel). -/
def fcReturnedNone : Except PyErr (Option Subst) → Bool
  | .ok Option.none => true
  | _ => false

/-- Variable from propositional.py: identifier, polarity flag and the mutable
    truthyness slot (None meaning unassigned). Variable.__eq__ and __hash__ ignore
    truthyness. -/
structure PyVariable where
  identifier : String
  is_negated : Bool
  truthyness : Option Bool
  deriving DecidableEq, Repr

/-- Variable.__eq__ from propositional.py: identifier and polarity only. -/
def varEq (a b : PyVariable) : Bool :=
  a.identifier == b.identifier && a.is_negated == b.is_negated

/-- Python not applied to an Optional[bool]: not None is True. -/
def pyNot : Option Bool → Bool
  | Option.none => true
  | some b => !b

/-- Variable.__invert__ from propositional.py: flips the polarity and stores
    not truthyness (always a proper boolean afterwards). -/
def vinvert (v : PyVariable) : PyVariable :=
  ⟨v.identifier, !v.is_negated, some (pyNot v.truthyness)⟩

/-- Propositional formula tree from propositional.py: Variable plus the four binary
    connectives OrClause, AndClause, CondClause, BicondClause. -/
inductive Clause
  | var (v : PyVariable)
  | or (c1 c2 : Clause)
  | and (c1 c2 : Clause)
  | cond (c1 c2 : Clause)
  | bicond (c1 c2 : Clause)
  deriving DecidableEq, Repr

/-- The __invert__ operators of propositional.py: De Morgan on And/Or, the
    implication law on Cond, the exclusive-or expansion on Bicond, and polarity
    flip on a literal. -/
def cinvert : Clause → Clause
  | .var v => .var (vinvert v)
  | .or a b => .and (cinvert a) (cinvert b)
  | .and a b => .or (cinvert a) (cinvert b)
  | .cond a b => .and a (cinvert b)
  | .bicond a b => .or (.and a (cinvert b)) (.and b (cinvert a))

/-- Structural equality of formulas (Clause.__eq__ plus Variable.__eq__): operators
    must match, literals compare identifier and polarity, binary nodes recurse. -/
def clauseEq : Clause → Clause → Bool
  | .var v, .var w => varEq v w
  | .or a b, .or c d => clauseEq a c && clauseEq b d
  | .and a b, .and c d => clauseEq a c && clauseEq b d
  | .cond a b, .cond c d => clauseEq a c && clauseEq b d
  | .bicond a b, .bicond c d => clauseEq a c && clauseEq b d
  | _, _ => false

/-- Test that a formula contains no Cond and no Bicond node. -/
def condBicondFree : Clause → Bool
  | .var _ => true
  | .or a b => condBicondFree a && condBicondFree b
  | .and a b => condBicondFree a && condBicondFree b
  | .cond _ _ => false
  | .bicond _ _ => false

/-- Model dictionary of the DPLL code: insertion-ordered association list from
    symbol to stored value. A stored Option.none mirrors a defaultdict entry whose
    value is Python None (dpll_satisfiable uses defaultdict(lambda None), so a plain
    read of a missing key inserts None). -/
abbrev PModel := List (String × Option Bool)

/-- Presence-aware lookup (Python: k in model / model[k] after the in-check). -/
def mlookup : PModel → String → Option (Option Bool)
  | [], _ => Option.none
  | p :: rest, k => if p.1 = k then some p.2 else mlookup rest k

/-- Dictionary write model[k] = v. -/
def mupdate : PModel → String → Option Bool → PModel
  | [], k, v => [(k, v)]
  | p :: rest, k, v => if p.1 = k then (k, v) :: rest else p :: mupdate rest k v

/-- Defaultdict read model[k] without a prior in-check: a missing key is inserted
    with value None and None is returned (the source uses defaultdict(lambda None)
    in dpll_satisfiable). -/
def dget (m : PModel) (k : String) : Option Bool × PModel :=
  match mlookup m k with
  | some v => (v, m)
  | Option.none => (Option.none, m ++ [(k, Option.none)])

/-- Truthyness assignment performed on every literal by CnfClause.is_true: an
    assigned symbol stores the model value (negated literals store Python
    not value, which is True when the stored value is None), an unassigned symbol
    stores None. -/
def assignTruthyness (m : PModel) (v : PyVariable) : PyVariable :=
  match mlookup m v.identifier with
  | some val =>
    ⟨v.identifier, v.is_negated, if v.is_negated then some (pyNot val) else val⟩
  | Option.none => ⟨v.identifier, v.is_negated, Option.none⟩

/-- CnfClause.is_true from propositional.py with the literal mutation made explicit:
    the result is paired with the literal list as it stands after the call (every
    truthyness slot rewritten). The clause is True when some literal is True, None
    (undetermined) when none is True and some is unassigned, False otherwise.
    Python raises TypeError on an empty literal list (reduce over an empty
    generator); that case is not exercised by the claims and evaluates to False
    here. -/
def is_true (lits : List PyVariable) (m : PModel) : Option Bool × List PyVariable :=
  let updated := lits.map (assignTruthyness m)
  let result : Option Bool :=
    if updated.any (fun v => v.truthyness == some true) then some true
    else if updated.any (fun v => v.truthyness == Option.none) then Option.none
    else some false
  (result, updated)

/-- Literal as it lives inside a Python set of Variables: since Variable.__hash__
    and __eq__ ignore truthyness, set membership and set operations see only the
    identifier and the polarity. -/
structure Lit where
  identifier : String
  is_negated : Bool
  deriving DecidableEq, Repr

/-- Polarity flip on a set-level literal (what ~literal means to set membership). -/
def linvert (l : Lit) : Lit := ⟨l.identifier, !l.is_negated⟩

/-- Error kinds of the CnfClause operations. -/
inductive CnfErr
  | uselessCnfClause
  | cnfResolveError
  | keyError
  | badHornClause
  deriving DecidableEq, Repr

/-- CnfClause from propositional.py: a finite set of literals that never contains a
    literal together with its negation (the constructor rejects such sets). -/
structure CnfClause where
  lits : Finset Lit
  valid : ∀ l ∈ lits, linvert l ∉ lits

/-- CnfClause.__init__ from propositional.py: raises UselessCnfClauseException when
    some literal and its negation are both present. -/
def mkCnfClause (s : Finset Lit) : Except CnfErr CnfClause :=
  if h : ∀ l ∈ s, linvert l ∉ s then .ok ⟨s, h⟩
  else .error .uselessCnfClause

/-- CnfClause.resolve from propositional.py: the two membership guards raise
    CnfResolveError when neither the literal nor its negation occurs in an operand;
    c1p picks the operand containing the literal, c2p the one containing its
    negation; set.remove raises KeyError when its element is absent; the union of
    the two shrunken copies goes through the CnfClause constructor (which propagates
    UselessCnfClauseException). The source removes literals from fresh copies, so
    the operands themselves are left as they were. -/
def resolve (c1 c2 : CnfClause) (lit : Lit) : Except CnfErr CnfClause :=
  if lit ∉ c1.lits ∧ linvert lit ∉ c1.lits then .error .cnfResolveError
  else if lit ∉ c2.lits ∧ linvert lit ∉ c2.lits then .error .cnfResolveError
  else
    let c1p := if lit ∈ c1.lits then c1.lits else c2.lits
    let c2p := if linvert lit ∈ c1.lits then c1.lits else c2.lits
    if lit ∉ c1p then .error .keyError
    else if linvert lit ∉ c2p then .error .keyError
    else mkCnfClause ((c1p.erase lit) ∪ (c2p.erase (linvert lit)))

/-- Set-level view of a solver literal. -/
def stripVar (v : PyVariable) : Lit := ⟨v.identifier, v.is_negated⟩

/-- Function find_pure_symbol from propositional.py. The collected variables set
    holds every literal (identifier, polarity) whose identifier is among the
    symbols; the first literal whose negation is not in that set is returned
    together with model[identifier] - the model's current value, read through the
    defaultdict (inserting None for a missing key). Source iteration is over Python
    sets; the embedding fixes the list order. -/
def findPureSymbol (symbols : List String) (clauses : List (List PyVariable))
    (m : PModel) : (Option String × Option Bool) × PModel :=
  let vars : List Lit :=
    (clauses.flatten.filter (fun v => symbols.contains v.identifier)).map stripVar
  match clauses.flatten.find?
      (fun v => vars.contains (stripVar v) && !vars.contains (linvert (stripVar v))) with
  | some v =>
    let (val, m') := dget m v.identifier
    ((some v.identifier, val), m')
  | Option.none => ((Option.none, Option.none), m)

/-- Per-literal false test of find_unit_clause: an assigned literal counts as false
    when its effective value (negated literals apply Python not, so a stored None
    becomes True) is exactly False. -/
def fucFalse (m : PModel) (l : PyVariable) : Bool :=
  match mlookup m l.identifier with
  | some v => if l.is_negated then pyNot v == false else v == some false
  | Option.none => false

/-- Literal scan of find_unit_clause inside one clause: the false_literals set is
    rebuilt for every literal (as in the source) and holds at most that literal;
    when the clause has exactly one non-false literal, that literal's symbol is
    returned with its defaultdict model value unless it was previously seen. -/
def findUnitInClause (c : List PyVariable) (m : PModel) (seen : List String) :
    List PyVariable → Option ((Option String × Option Bool) × PModel)
  | [] => Option.none
  | l :: rest =>
    let fl : List PyVariable := if fucFalse m l then [l] else []
    if c.length - fl.length = 1 then
      match (if fucFalse m l then c.filter (fun x => !varEq x l) else c).head? with
      | some u =>
        if seen.contains u.identifier then findUnitInClause c m seen rest
        else
          let (val, m') := dget m u.identifier
          some ((some u.identifier, val), m')
      | Option.none => findUnitInClause c m seen rest
    else findUnitInClause c m seen rest

/-- Function find_unit_clause from propositional.py over the clause list. -/
def findUnitClause (clauses : List (List PyVariable)) (m : PModel)
    (seen : List String) : (Option String × Option Bool) × PModel :=
  match clauses with
  | [] => ((Option.none, Option.none), m)
  | c :: rest =>
    match findUnitInClause c m seen c with
    | some r => r
    | Option.none => findUnitClause rest m seen

/-- Outcome of one unfolding of the dpll body: a definite answer, a single
    recursive call (pure-symbol or unit-clause step), the two-way split, or a
    Python crash (reduce over no clauses, or set.pop from no symbols). -/
inductive DpllNext
  | ret (b : Bool)
  | recurse (symbols : List String) (m : PModel) (seen : List String)
  | split (p : String) (rest : List String) (m1 m2 : PModel) (seen : List String)
  | crash
  deriving DecidableEq, Repr

/-- One unfolding of dpll from propositional.py: the all-true and any-false guards
    evaluate every clause under the model; find_pure_symbol then find_unit_clause
    fire only when both the symbol and the returned model value are not None (the
    model they polluted is threaded on); otherwise the first remaining symbol is
    split on. Clause sets are embedded as lists in iteration order. -/
def dpllStep (clauses : List (List PyVariable)) (symbols : List String) (m : PModel)
    (seen : List String) : DpllNext :=
  if clauses.isEmpty then .crash
  else
    let vals := clauses.map (fun c => (is_true c m).1)
    if vals.all (fun r => r == some true) then .ret true
    else if vals.any (fun r => r == some false) then .ret false
    else
      match findPureSymbol symbols clauses m with
      | ((some p, some v), m1) =>
        .recurse (symbols.filter (fun s => !(s == p))) (mupdate m1 p (some v)) seen
      | ((_, _), m1) =>
        match findUnitClause clauses m1 seen with
        | ((some p, some v), m2) =>
          .recurse (symbols.filter (fun s => !(s == p))) (mupdate m2 p (some v))
            (seen ++ [p])
        | ((_, _), m2) =>
          match symbols with
          | [] => .crash
          | p :: rest =>
            .split p rest (mupdate m2 p (some true)) (mupdate m2 p (some false)) seen

/-- HornClause from propositional.py: antecedent literals and a consequent. -/
structure HornClause where
  antecedents : List PyVariable
  consequent : PyVariable
  deriving DecidableEq, Repr

/-- HornClause.__init__ from propositional.py: every antecedent must carry the same
    polarity as the first one, otherwise BadHornClause is raised. -/
def mkHornClause (antecedents : List PyVariable) (consequent : PyVariable) :
    Except CnfErr HornClause :=
  match antecedents with
  | [] => .ok ⟨antecedents, consequent⟩
  | a :: rest =>
    if rest.any (fun b => b.is_negated != a.is_negated) then .error .badHornClause
    else .ok ⟨antecedents, consequent⟩

/-- Counter decrement step of propositional forward chaining: every clause having
    the popped literal among its antecedents has its counter decremented, and a
    clause whose counter hits zero enqueues its consequent. -/
def plFcStep (p : PyVariable) :
    List (HornClause × Nat) → List (HornClause × Nat) × List PyVariable
  | [] => ([], [])
  | (hc, n) :: rest =>
    let (rest', enq) := plFcStep p rest
    if hc.antecedents.any (fun a => varEq a p) then
      ((hc, n - 1) :: rest', if n = 1 then hc.consequent :: enq else enq)
    else ((hc, n) :: rest', enq)

/-- Agenda loop of propositional forward chaining: pop a literal, succeed when it is
    the query, otherwise decrement counters and enqueue newly satisfied
    consequents; an empty agenda means not entailed. Fuel bounds the pops (the
    outer none is exhausted fuel). -/
def plFcLoop : Nat → List (HornClause × Nat) → List PyVariable → PyVariable →
    Option Bool
  | 0, _, _, _ => Option.none
  | _ + 1, _, [], _ => some false
  | f + 1, counts, p :: agenda, q =>
    if varEq p q then some true
    else
      let (counts', enq) := plFcStep p counts
      plFcLoop f counts' (agenda ++ enq) q

/-- Modelled from the spec: pl_fc_entails is named in the specification's public
    surface and described in its section 4.5, but no implementation exists anywhere
    under src/ (only the HornClause class it would consume). Following the spec's
    words: each Horn clause counts its unsatisfied antecedents, the agenda is
    seeded with the consequents of the clauses that have no antecedents, and the
    agenda loop of plFcLoop runs until success or exhaustion. -/
def pl_fc_entails (fuel : Nat) (kb : List HornClause) (q : PyVariable) :
    Option Bool :=
  plFcLoop fuel (kb.map (fun hc => (hc, hc.antecedents.length)))
    (kb.filterMap
      (fun hc => if hc.antecedents.isEmpty then some hc.consequent else Option.none))
    q

/-- Positive propositional literal with an unassigned truthyness slot. -/
def pvar (s : String) : PyVariable := ⟨s, false, Option.none⟩

/-- Helper building a propositional Horn clause through the constructor; the
    default is never reached for the lists used below. -/
def hornOf (l : List PyVariable) (c : PyVariable) : HornClause :=
  (mkHornClause l c).toOption.getD ⟨[], pvar ""⟩

/-- Horn knowledge base of the specification's forward-chaining scenario:
    A., B., A and B imply L, A and P imply L, B and L imply M, L and M imply P,
    P implies Q. -/
def fcKb : List HornClause :=
  [ hornOf [] (pvar "A"),
    hornOf [] (pvar "B"),
    hornOf [pvar "A", pvar "B"] (pvar "L"),
    hornOf [pvar "A", pvar "P"] (pvar "L"),
    hornOf [pvar "B", pvar "L"] (pvar "M"),
    hornOf [pvar "L", pvar "M"] (pvar "P"),
    hornOf [pvar "P"] (pvar "Q") ]

/-- Invariant of substitutions produced by unify against a ground right-hand side:
    keys are variables and values are constants. -/
def SubInv (theta : Subst) : Prop :=
  ∀ pr ∈ theta, pr.1.type = TermType.VARIABLE ∧ pr.2.type = TermType.CONSTANT

/-- Literal set of a successful resolve outcome, Option.none on any exception. -/
def resolveLits : Except CnfErr CnfClause → Option (Finset Lit)
  | .ok c => some c.lits
  | .error _ => Option.none

/-- Clause with the sole literal not A. -/
def cxNegA : CnfClause := ⟨{⟨"A", true⟩}, by decide⟩

/-- Clause with the sole literal A. -/
def cxPosA : CnfClause := ⟨{⟨"A", false⟩}, by decide⟩

/-- Clause A or B. -/
def cwAB : CnfClause := ⟨{⟨"A", false⟩, ⟨"B", false⟩}, by decide⟩

/-- Clause not A or C. -/
def cwNAC : CnfClause := ⟨{⟨"A", true⟩, ⟨"C", false⟩}, by decide⟩

/-- Single clause A or B used by the dpll pure-symbol analysis. -/
def pureClauses : List (List PyVariable) := [[pvar "A", pvar "B"]]

/-- Model assigning False to A (and nothing else). -/
def pureModel : PModel := [("A", some false)]

/-- Formula (A or (B and not C)), free of Cond and Bicond nodes. -/
def andOrFormula : Clause :=
  .or (.var (pvar "A")) (.and (.var (pvar "B")) (.var ⟨"C", true, Option.none⟩))

/-- Formula (A implies B). -/
def condFormula : Clause := .cond (.var (pvar "A")) (.var (pvar "B"))

/-- Sanity check: every clause of the criminal knowledge base is accepted by the
    HornClauseFOL constructor (so hcOf never falls back to its default). -/
theorem criminalRaw_all_accepted :
    criminalRaw.all (fun d => (mkHornClauseFOL d.1 d.2).toOption.isSome) = true := by
  decide

/-- Sanity check: every clause of the propositional forward-chaining knowledge base
    is accepted by the HornClause constructor. -/
theorem fcKb_all_accepted :
    ([([], pvar "A"), ([], pvar "B"),
      ([pvar "A", pvar "B"], pvar "L"), ([pvar "A", pvar "P"], pvar "L"),
      ([pvar "B", pvar "L"], pvar "M"), ([pvar "L", pvar "M"], pvar "P"),
      ([pvar "P"], pvar "Q")] : List (List PyVariable × PyVariable)).all
      (fun d => (mkHornClause d.1 d.2).toOption.isSome) = true := by
  decide

/-- Absorbing the pass-local new facts never touches the no_new_knowledge flag. -/
theorem fcAbsorbNew_flag (new : List Predicate) :
    ∀ st : FcState, (fcAbsorbNew st new).noNewKnowledge = st.noNewKnowledge := by
  induction new with
  | nil => intro st; rfl
  | cons n rest ih =>
    intro st
    simp only [fcAbsorbNew, List.foldl_cons]
    by_cases h : n ∈ st.knownFacts
    · simp only [if_pos h]
      exact ih st
    · simp only [if_neg h]
      exact ih _

/-- A full pass over the rules never touches the no_new_knowledge flag: the flag a
    pass hands back is the flag it started with. -/
theorem folFcRules_flag (uf : Nat) (alpha : Predicate) (rules : List HornClauseFOL) :
    ∀ counter new st st',
      folFcRules uf alpha rules counter new st = .ok (.cont st') →
      st'.noNewKnowledge = st.noNewKnowledge := by
  induction rules with
  | nil =>
    intro counter new st st' h
    simp only [folFcRules] at h
    cases h
    rfl
  | cons r rs ih =>
    intro counter new st st' h
    simp only [folFcRules] at h
    split at h
    · cases h
    · split at h
      · cases h
      · split at h
        · cases h
        · cases h
        · have := ih _ _ _ _ h
          rw [this, fcAbsorbNew_flag]

/-- While the flag is False (it always is), the loop never reaches the return-None
    exit: every iteration either errors, answers, or keeps looping. -/
theorem folFcLoop_not_none (uf : Nat) (rules : List HornClauseFOL)
    (alpha : Predicate) :
    ∀ f st, st.noNewKnowledge = false →
      fcReturnedNone (folFcLoop uf rules alpha f st) = false := by
  intro f
  induction f with
  | zero => intro st _; rfl
  | succ f ih =>
    intro st hst
    cases hr : folFcRules uf alpha rules 0 [] st with
    | error e => simp only [folFcLoop, hr]; rfl
    | ok out =>
      cases out with
      | ret phi => simp only [folFcLoop, hr]; rfl
      | cont st' =>
        have hflag : st'.noNewKnowledge = false := by
          rw [folFcRules_flag uf alpha rules 0 [] st st' hr, hst]
        simp only [folFcLoop, hr, hflag]
        simpa using ih st' hflag

/-- Specification of substituteArgs as one expression: the error fires exactly when
    some argument is a constant bound in the map, and otherwise every argument is
    replaced by its image with itself as default. -/
theorem substituteArgs_spec (theta : Subst) :
    ∀ l : List Term,
      substituteArgs theta l =
        if l.any (fun a => (dlookup theta a).isSome &&
            decide (a.type = TermType.CONSTANT)) then
          .error PyErr.constantAsVariable
        else .ok (l.map (fun a => (dlookup theta a).getD a)) := by
  intro l
  induction l with
  | nil => rfl
  | cons a rest ih =>
    simp only [substituteArgs, List.any_cons, List.map_cons]
    by_cases h : (dlookup theta a).isSome ∧ a.type = TermType.CONSTANT
    · rw [if_pos h]
      have hb : ((dlookup theta a).isSome &&
          decide (a.type = TermType.CONSTANT)) = true := by
        simp [h.1, h.2]
      rw [hb]
      simp
    · rw [if_neg h]
      have hb : ((dlookup theta a).isSome &&
          decide (a.type = TermType.CONSTANT)) = false := by
        rcases Decidable.not_and_iff_or_not.mp h with h1 | h1 <;> simp [h1]
      rw [hb, ih]
      by_cases h2 : rest.any (fun a => (dlookup theta a).isSome &&
          decide (a.type = TermType.CONSTANT)) = true
      · simp [h2]
      · simp only [Bool.not_eq_true] at h2
        simp [h2]

/-- Keys of an invariant-respecting substitution are variables, so a constant is
    never bound. -/
theorem dlookup_const_none (theta : Subst) (h : SubInv theta) (t : Term)
    (ht : t.type = TermType.CONSTANT) : dlookup theta t = Option.none := by
  induction theta with
  | nil => rfl
  | cons p rest ih =>
    have hp := h p (List.mem_cons_self p rest)
    have hne : p.1 ≠ t := by
      intro he
      rw [he, ht] at hp
      exact absurd hp.1 (by decide)
    simp only [dlookup, if_neg hne]
    exact ih (fun q hq => h q (List.mem_cons_of_mem p hq))

/-- Lookup after a dictionary insertion. -/
theorem dlookup_dinsert (k v : Term) :
    ∀ (theta : Subst) (x : Term),
      dlookup (dinsert theta k v) x = if k = x then some v else dlookup theta x := by
  intro theta
  induction theta with
  | nil =>
    intro x
    simp only [dinsert, dlookup]
  | cons p rest ih =>
    intro x
    simp only [dinsert]
    by_cases h1 : p.1 = k
    · simp only [if_pos h1, dlookup]
      by_cases h2 : k = x
      · simp [h2]
      · have : p.1 ≠ x := by rw [h1]; exact h2
        simp [h2, this]
    · simp only [if_neg h1, dlookup]
      by_cases h2 : p.1 = x
      · have : k ≠ x := by
          intro he; exact h1 (by rw [he, h2])
        simp [h2, this]
      · simp [h2, ih x]

/-- Inserting a variable-to-constant binding preserves the substitution invariant. -/
theorem SubInv_dinsert (theta : Subst) (k v : Term) (h : SubInv theta)
    (hk : k.type = TermType.VARIABLE) (hv : v.type = TermType.CONSTANT) :
    SubInv (dinsert theta k v) := by
  induction theta with
  | nil =>
    intro pr hpr
    simp only [dinsert, List.mem_singleton] at hpr
    rw [hpr]
    exact ⟨hk, hv⟩
  | cons p rest ih =>
    intro pr hpr
    simp only [dinsert] at hpr
    by_cases h1 : p.1 = k
    · rw [if_pos h1] at hpr
      rcases List.mem_cons.mp hpr with h2 | h2
      · rw [h2]; exact ⟨hk, hv⟩
      · exact h pr (List.mem_cons_of_mem p h2)
    · rw [if_neg h1] at hpr
      rcases List.mem_cons.mp hpr with h2 | h2
      · rw [h2]; exact h p (List.mem_cons_self p rest)
      · exact ih (fun q hq => h q (List.mem_cons_of_mem p hq)) pr h2

/-- Values of an invariant-respecting substitution are constants. -/
theorem dlookup_value_const (theta : Subst) (h : SubInv theta) :
    ∀ k u, dlookup theta k = some u → u.type = TermType.CONSTANT := by
  induction theta with
  | nil => intro k u hk; cases hk
  | cons p rest ih =>
    intro k u hk
    simp only [dlookup] at hk
    by_cases h1 : p.1 = k
    · rw [if_pos h1] at hk
      cases hk
      exact (h p (List.mem_cons_self p rest)).2
    · rw [if_neg h1] at hk
      exact ih (fun q hq => h q (List.mem_cons_of_mem p hq)) k u hk

/-- Unifying two terms against an invariant substitution with a constant right-hand
    term preserves the invariant, keeps every existing binding, and on success the
    left term is bound to the right one (or they were already the same constant). -/
theorem unify_term_ground (f : Nat) (a b : Term) (theta theta' : Subst)
    (hb : b.type = TermType.CONSTANT) (hinv : SubInv theta)
    (h : unify f (.term a) (.term b) (some theta) = some (some theta')) :
    SubInv theta' ∧ (∀ k w, dlookup theta k = some w → dlookup theta' k = some w) ∧
      (dlookup theta' a = some b ∨ (a = b ∧ dlookup theta' a = Option.none)) := by
  match f with
  | 0 => cases h
  | g + 1 =>
    simp only [unify] at h
    by_cases hab : a = b
    · rw [if_pos hab] at h
      cases h
      exact ⟨hinv, fun k w hw => hw,
        Or.inr ⟨hab, by rw [hab]; exact dlookup_const_none theta hinv b hb⟩⟩
    · rw [if_neg hab] at h
      by_cases hav : a.type = TermType.VARIABLE
      · rw [if_pos hav] at h
        match g with
        | 0 => cases h
        | g' + 1 =>
          simp only [unify_var] at h
          cases hla : dlookup theta a with
          | some u =>
            rw [hla] at h
            have hu : u.type = TermType.CONSTANT :=
              dlookup_value_const theta hinv a u hla
            match g' with
            | 0 => cases h
            | g'' + 1 =>
              simp only [unify] at h
              by_cases hub : u = b
              · rw [if_pos hub] at h
                cases h
                exact ⟨hinv, fun k w hw => hw, Or.inl (by rw [hla, hub])⟩
              · rw [if_neg hub] at h
                rw [if_neg (by rw [hu]; decide), if_neg (by rw [hb]; decide)] at h
                cases h
          | none =>
            rw [hla] at h
            rw [dlookup_const_none theta hinv b hb] at h
            cases h
            refine ⟨SubInv_dinsert theta a b hinv hav hb, ?_, ?_⟩
            · intro k w hw
              rw [add_substitutions, dlookup_dinsert]
              by_cases hk : a = k
              · rw [← hk] at hw; rw [hla] at hw; cases hw
              · rw [if_neg hk]; exact hw
            · left
              rw [add_substitutions, dlookup_dinsert, if_pos rfl]
      · rw [if_neg hav] at h
        rw [if_neg (by rw [hb]; decide)] at h
        cases h

/-- Applying an invariant substitution to a list of constants is the identity. -/
theorem map_ground_id (theta : Subst) (h : SubInv theta) :
    ∀ ys : List Term, (∀ t ∈ ys, t.type = TermType.CONSTANT) →
      ys.map (fun a => (dlookup theta a).getD a) = ys := by
  intro ys
  induction ys with
  | nil => intro _; rfl
  | cons b rest ih =>
    intro hg
    rw [List.map_cons, dlookup_const_none theta h b (hg b (List.mem_cons_self b rest)),
      ih (fun t ht => hg t (List.mem_cons_of_mem b ht))]
    rfl

/-- A None substitution propagates through unify as failure (or exhausted fuel). -/
theorem unify_fail_propagates (g : Nat) (x y : Uarg) :
    unify g x y Option.none = Option.none ∨
      unify g x y Option.none = some Option.none := by
  match g with
  | 0 => exact Or.inl rfl
  | g' + 1 => right; cases x <;> cases y <;> simp [unify]

/-- Unifying a term list against a list of constants: on success the substitution
    keys are variables and values constants, earlier bindings persist, and a single
    application of the substitution maps the left list onto the right one (which is
    itself left fixed). -/
theorem unify_args_ground :
    ∀ (xs : List Term) (f : Nat) (ys : List Term) (theta theta' : Subst),
      SubInv theta → (∀ t ∈ ys, t.type = TermType.CONSTANT) →
      unify f (.args xs) (.args ys) (some theta) = some (some theta') →
      SubInv theta' ∧ (∀ k w, dlookup theta k = some w → dlookup theta' k = some w) ∧
        xs.map (fun a => (dlookup theta' a).getD a) = ys ∧
        ys.map (fun a => (dlookup theta' a).getD a) = ys := by
  intro xs
  induction xs with
  | nil =>
    intro f ys theta theta' hinv hg h
    match f with
    | 0 => cases h
    | g + 1 =>
      cases ys with
      | nil =>
        have hred : unify (g + 1) (Uarg.args ([] : List Term)) (.args [])
            (some theta) = some (some theta) := by simp [unify]
        rw [hred] at h
        cases h
        exact ⟨hinv, fun k w hw => hw, rfl, rfl⟩
      | cons b ys' =>
        simp only [unify, List.length_nil, List.length_cons] at h
        rw [if_pos (by omega)] at h
        cases h
  | cons a xs' ih =>
    intro f ys theta theta' hinv hg h
    match f with
    | 0 => cases h
    | g + 1 =>
      cases ys with
      | nil =>
        simp only [unify, List.length_cons, List.length_nil] at h
        rw [if_pos (by omega)] at h
        cases h
      | cons b ys' =>
        simp only [unify] at h
        by_cases hlen : (a :: xs').length ≠ (b :: ys').length
        · rw [if_pos hlen] at h; cases h
        · rw [if_neg hlen] at h
          by_cases heq : a :: xs' = b :: ys'
          · rw [if_pos heq] at h
            cases h
            have hmap := map_ground_id theta hinv (b :: ys') hg
            exact ⟨hinv, fun k w hw => hw, by rw [heq]; exact hmap, hmap⟩
          · rw [if_neg heq] at h
            split at h
            · cases h
            · rename_i r hinner
              cases r with
              | none =>
                rcases unify_fail_propagates g (.args xs') (.args ys') with hc | hc <;>
                  rw [hc] at h <;> cases h
              | some theta1 =>
                have hb : b.type = TermType.CONSTANT :=
                  hg b (List.mem_cons_self b ys')
                have hterm := unify_term_ground g a b theta theta1 hb hinv hinner
                have hg' : ∀ t ∈ ys', t.type = TermType.CONSTANT :=
                  fun t ht => hg t (List.mem_cons_of_mem b ht)
                have hrec := ih g ys' theta1 theta' hterm.1 hg' h
                have hhead : (dlookup theta' a).getD a = b := by
                  rcases hterm.2.2 with hcase | ⟨hab, _⟩
                  · rw [hrec.2.1 a b hcase]; rfl
                  · rw [hab, dlookup_const_none theta' hrec.1 b hb]; rfl
                refine ⟨hrec.1, ?_, ?_, ?_⟩
                · intro k w hw
                  exact hrec.2.1 k w (hterm.2.1 k w hw)
                · rw [List.map_cons, hhead, hrec.2.2.1]
                · rw [List.map_cons, dlookup_const_none theta' hrec.1 b hb,
                    hrec.2.2.2]
                  rfl

/-- Substituting through an invariant substitution never raises: no argument can be
    a bound constant. -/
theorem subinv_no_error (theta : Subst) (hinv : SubInv theta) (a : Term) :
    ((dlookup theta a).isSome && decide (a.type = TermType.CONSTANT)) = false := by
  by_cases hc : a.type = TermType.CONSTANT
  · rw [dlookup_const_none theta hinv a hc]
    rfl
  · simp [hc]

/-- C1: fol_fc_ask cannot terminate with None. The no_new_knowledge flag is
    initialised False and never assigned again, so the break that would end the
    while loop when a pass produces no new facts is unreachable: for every
    knowledge base and query, no amount of loop fuel makes the function return
    None, and on the empty knowledge base (where the query is not derivable and
    every pass is a no-op) the loop just spins until the fuel is gone. -/
theorem fol_fc_ask_never_takes_the_none_exit :
    (∀ uf passes kb alpha, fcReturnedNone (fol_fc_ask uf passes kb alpha) = false) ∧
    (∀ uf passes, fol_fc_ask uf passes [] criminalGoal = .error .fuelOut) := by
  constructor
  · intro uf passes kb alpha
    simp only [fol_fc_ask]
    cases hp : folFcPartition kb with
    | error e => rfl
    | ok trip =>
      exact folFcLoop_not_none uf trip.2.2 alpha passes ⟨trip.1, trip.2.1, false⟩ rfl
  · intro uf passes
    induction passes with
    | zero => rfl
    | succ f ih =>
      simpa only [fol_fc_ask, folFcPartition, folFcLoop, folFcRules] using ih

/-- C2: on the criminal knowledge base, fol_bc_ask for the goal Criminal(West)
    returns a one-element (hence non-empty) answer list whose substitution binds
    the standardised variables x0, y2 and z1 to the constants West, M1 and Nono. -/
theorem fol_bc_ask_criminal_kb_answers :
    fol_bc_ask 60 criminalKb [criminalGoal] [] = .ok [criminalAnswer] ∧
    dlookup criminalAnswer (tVar "x0") = some west ∧
    dlookup criminalAnswer (tVar "y2") = some m1 ∧
    dlookup criminalAnswer (tVar "z1") = some nono :=
  ⟨rfl, rfl, rfl, rfl⟩

/-- C3: HornClauseFOL equality consults only the consequent, against both the
    specification and the clause's own string-based hash: the two clauses
    King(x) implies Evil(x) and Greedy(x) implies Evil(x) have different antecedent
    lists and different hash strings, yet compare equal. -/
theorem hornClauseFOLEq_ignores_antecedents :
    ∃ h1 h2 : HornClauseFOL,
      mkHornClauseFOL [⟨"King", [tVar "x"], false⟩]
        (.pred ⟨"Evil", [tVar "x"], false⟩) = .ok h1 ∧
      mkHornClauseFOL [⟨"Greedy", [tVar "x"], false⟩]
        (.pred ⟨"Evil", [tVar "x"], false⟩) = .ok h2 ∧
      hornClauseFOLEq h1 h2 = true ∧
      decide (h1.antecedents = h2.antecedents) = false ∧
      decide (hornClauseFOLStr h1 = hornClauseFOLStr h2) = false := by
  refine ⟨⟨[⟨"King", [tVar "x"], false⟩], .pred ⟨"Evil", [tVar "x"], false⟩⟩,
    ⟨[⟨"Greedy", [tVar "x"], false⟩], .pred ⟨"Evil", [tVar "x"], false⟩⟩,
    rfl, rfl, rfl, by decide, by decide⟩

/-- C4 counterexample: unify succeeds on the lists [u, u] and [v, w] with the
    triangular substitution u to v, v to w, but one application of that
    substitution sends the first list to [v, v] and the second to [w, w], which
    differ - the returned substitution is not a unifier under single
    application. -/
theorem unify_single_application_not_unifier :
    unify 10 (.args [tVar "u", tVar "u"]) (.args [tVar "v", tVar "w"]) (some []) =
      some (some [(tVar "u", tVar "v"), (tVar "v", tVar "w")]) ∧
    substitute [(tVar "u", tVar "v"), (tVar "v", tVar "w")]
      ⟨"P", [tVar "u", tVar "u"], false⟩ =
      .ok ⟨"P", [tVar "v", tVar "v"], false⟩ ∧
    substitute [(tVar "u", tVar "v"), (tVar "v", tVar "w")]
      ⟨"P", [tVar "v", tVar "w"], false⟩ =
      .ok ⟨"P", [tVar "w", tVar "w"], false⟩ ∧
    decide ((⟨"P", [tVar "v", tVar "v"], false⟩ : Predicate) =
      ⟨"P", [tVar "w", tVar "w"], false⟩) = false :=
  ⟨rfl, rfl, rfl, by decide⟩

/-- C4 amended: when the right-hand term list is ground (all constants), a
    successful unify from the empty substitution does produce a unifier: one
    application of the result maps the left list onto the right list and leaves
    the right list fixed. -/
theorem unify_ground_right_side_unifier (f : Nat) (id : String) (neg1 neg2 : Bool)
    (xs ys : List Term) (theta' : Subst)
    (hg : ∀ t ∈ ys, t.type = TermType.CONSTANT)
    (h : unify f (.args xs) (.args ys) (some []) = some (some theta')) :
    substitute theta' ⟨id, xs, neg1⟩ = .ok ⟨id, ys, false⟩ ∧
    substitute theta' ⟨id, ys, neg2⟩ = .ok ⟨id, ys, false⟩ := by
  have hnil : SubInv [] := fun pr hpr => absurd hpr (List.not_mem_nil pr)
  have hmain := unify_args_ground xs f ys [] theta' hnil hg h
  have hany1 : (xs.any fun a => (dlookup theta' a).isSome &&
      decide (a.type = TermType.CONSTANT)) = false :=
    List.any_eq_false.mpr
      (fun a _ => by rw [subinv_no_error theta' hmain.1 a]; exact Bool.false_ne_true)
  have hany2 : (ys.any fun a => (dlookup theta' a).isSome &&
      decide (a.type = TermType.CONSTANT)) = false :=
    List.any_eq_false.mpr
      (fun a _ => by rw [subinv_no_error theta' hmain.1 a]; exact Bool.false_ne_true)
  constructor
  · rw [substitute, substituteArgs_spec]
    simp only [hany1, Bool.false_eq_true, if_false]
    rw [hmain.2.2.1]
  · rw [substitute, substituteArgs_spec]
    simp only [hany2, Bool.false_eq_true, if_false]
    rw [hmain.2.2.2]

/-- C4 witness: the amended theorem applied to unifying P(x) with the ground
    P(A). -/
theorem unify_ground_right_side_unifier_witness :
    (∀ t ∈ [tConst "A"], t.type = TermType.CONSTANT) ∧
    substitute [(tVar "x", tConst "A")] ⟨"P", [tVar "x"], false⟩ =
      .ok ⟨"P", [tConst "A"], false⟩ ∧
    substitute [(tVar "x", tConst "A")] ⟨"P", [tConst "A"], false⟩ =
      .ok ⟨"P", [tConst "A"], false⟩ := by
  have h := unify_ground_right_side_unifier 10 "P" false false [tVar "x"]
    [tConst "A"] [(tVar "x", tConst "A")] (by decide) rfl
  exact ⟨by decide, h.1, h.2⟩

/-- C5 counterexample: substituting into the negated predicate not King(x) yields
    the positive predicate King(Diego) - the negation flag of the input is
    dropped, contradicting the claim that it is preserved. -/
theorem substitute_drops_negation :
    substitute [(tVar "x", tConst "Diego")] ⟨"King", [tVar "x"], true⟩ =
      .ok ⟨"King", [tConst "Diego"], false⟩ ∧
    Predicate.is_negated ⟨"King", [tVar "x"], true⟩ = true :=
  ⟨rfl, rfl⟩

/-- C5 amended: Substitution.substitute keeps the identifier and replaces every
    bound variable argument by its image (unbound arguments pass through), but the
    negation flag of the result is always False, and a constant argument bound in
    the map raises ConstantAsVariableException. -/
theorem substitute_characterisation (theta : Subst) (p : Predicate) :
    substitute theta p =
      if p.args.any (fun a => (dlookup theta a).isSome &&
          decide (a.type = TermType.CONSTANT)) then
        .error PyErr.constantAsVariable
      else .ok ⟨p.identifier, p.args.map (fun a => (dlookup theta a).getD a), false⟩ := by
  rw [substitute, substituteArgs_spec]
  by_cases h : p.args.any (fun a => (dlookup theta a).isSome &&
      decide (a.type = TermType.CONSTANT)) = true
  · simp [h]
  · simp only [Bool.not_eq_true] at h
    simp [h]

/-- C6 amended: when the clauses are neither all true nor any false under the
    model and find_pure_symbol returns a symbol p together with a non-None value,
    that value is the model's current entry for p (find_pure_symbol returns
    model[p], not the polarity-satisfying value), and dpll extends the (possibly
    defaultdict-polluted) model with exactly that value and recurses on the
    remaining symbols; when model[p] is None the pure-symbol branch is skipped
    entirely. -/
theorem dpll_pure_symbol_step (clauses : List (List PyVariable))
    (symbols : List String) (m m1 : PModel) (seen : List String) (p : String)
    (v : Bool) (hne : clauses.isEmpty = false)
    (h1 : (clauses.map (fun c => (is_true c m).1)).all
      (fun r => r == some true) = false)
    (h2 : (clauses.map (fun c => (is_true c m).1)).any
      (fun r => r == some false) = false)
    (h3 : findPureSymbol symbols clauses m = ((some p, some v), m1)) :
    dpllStep clauses symbols m seen =
      .recurse (symbols.filter (fun s => !(s == p))) (mupdate m1 p (some v)) seen := by
  simp only [dpllStep, hne, h1, h2, h3, Bool.false_eq_true, if_false]

/-- C6 witness: the amended step theorem applied to the clause (A or B) with A
    assigned False. -/
theorem dpll_pure_symbol_step_witness :
    (pureClauses.isEmpty = false) ∧
    ((pureClauses.map (fun c => (is_true c pureModel).1)).all
      (fun r => r == some true) = false) ∧
    ((pureClauses.map (fun c => (is_true c pureModel).1)).any
      (fun r => r == some false) = false) ∧
    findPureSymbol ["A", "B"] pureClauses pureModel =
      ((some "A", some false), pureModel) ∧
    dpllStep pureClauses ["A", "B"] pureModel [] =
      .recurse ((["A", "B"] : List String).filter (fun s => !(s == "A")))
        (mupdate pureModel "A" (some false)) [] :=
  ⟨rfl, rfl, rfl, rfl,
    dpll_pure_symbol_step pureClauses ["A", "B"] pureModel pureModel [] "A" false
      rfl rfl rfl rfl⟩

/-- C6 counterexample: for the single clause (A or B) under the model assigning A
    the value False, the guards of dpll hold and A occurs only positively, yet the
    pure-symbol step extends the model with False (the model's stored value) - not
    with the satisfying value True that the claim prescribes. -/
theorem dpll_pure_symbol_uses_model_value :
    ((pureClauses.map (fun c => (is_true c pureModel).1)).all
      (fun r => r == some true) = false) ∧
    ((pureClauses.map (fun c => (is_true c pureModel).1)).any
      (fun r => r == some false) = false) ∧
    ((pureClauses.flatten.map stripVar).contains (Lit.mk "A" false) = true) ∧
    ((pureClauses.flatten.map stripVar).contains (Lit.mk "A" true) = false) ∧
    dpllStep pureClauses ["A", "B"] pureModel [] =
      .recurse ["B"] [("A", some false)] [] ∧
    decide (dpllStep pureClauses ["A", "B"] pureModel [] =
      DpllNext.recurse ["B"] [("A", some true)] []) = false :=
  ⟨rfl, rfl, rfl, rfl, rfl, by decide⟩

/-- C7 amended: double negation is a structural identity for every formula built
    from literals, And and Or; formulas containing Cond or Bicond rewrite to their
    expanded forms instead (see the counterexample). -/
theorem double_negation_structural_on_and_or (F : Clause)
    (h : condBicondFree F = true) :
    clauseEq (cinvert (cinvert F)) F = true := by
  induction F with
  | var v => simp [cinvert, vinvert, clauseEq, varEq, pyNot, Bool.not_not]
  | or a b iha ihb =>
    simp only [condBicondFree, Bool.and_eq_true] at h
    simp [cinvert, clauseEq, iha h.1, ihb h.2]
  | and a b iha ihb =>
    simp only [condBicondFree, Bool.and_eq_true] at h
    simp [cinvert, clauseEq, iha h.1, ihb h.2]
  | cond a b iha ihb => simp [condBicondFree] at h
  | bicond a b iha ihb => simp [condBicondFree] at h

/-- C7 witness: the amended theorem applied to (A or (B and not C)). -/
theorem double_negation_structural_on_and_or_witness :
    condBicondFree andOrFormula = true ∧
    clauseEq (cinvert (cinvert andOrFormula)) andOrFormula = true :=
  ⟨by decide, double_negation_structural_on_and_or andOrFormula (by decide)⟩

/-- C7 counterexample: double negation of (A implies B) is the OrClause
    (not A or B), which is not structurally equal to the CondClause it came
    from - the claim fails on Cond (and likewise Bicond) formulas. -/
theorem double_negation_cond_not_structural :
    clauseEq (cinvert (cinvert condFormula)) condFormula = false ∧
    cinvert (cinvert condFormula) =
      .or (.var ⟨"A", true, some true⟩) (.var ⟨"B", false, some false⟩) :=
  ⟨by decide, by decide⟩


/-- C8 amended: resolve raises CnfResolveError exactly when neither the literal
    nor its negation occurs in the first operand, or neither occurs in the second;
    when the literal is in K1 and its negation in K2 the result is the constructor
    applied to (K1 minus the literal) union (K2 minus its negation) - propagating
    UselessCnfClauseException when that union is tautological - and in the
    mirrored case the roles of the operands swap. -/
theorem resolve_characterisation (c1 c2 : CnfClause) (lit : Lit) :
    (resolve c1 c2 lit = .error .cnfResolveError ↔
      (lit ∉ c1.lits ∧ linvert lit ∉ c1.lits) ∨
        (lit ∉ c2.lits ∧ linvert lit ∉ c2.lits)) ∧
    (lit ∈ c1.lits → linvert lit ∈ c2.lits →
      resolve c1 c2 lit =
        mkCnfClause ((c1.lits.erase lit) ∪ (c2.lits.erase (linvert lit)))) ∧
    (linvert lit ∈ c1.lits → lit ∈ c2.lits →
      resolve c1 c2 lit =
        mkCnfClause ((c2.lits.erase lit) ∪ (c1.lits.erase (linvert lit)))) := by
  refine ⟨⟨?_, ?_⟩, ?_, ?_⟩
  · intro h
    by_cases hc1 : lit ∉ c1.lits ∧ linvert lit ∉ c1.lits
    · exact Or.inl hc1
    · by_cases hc2 : lit ∉ c2.lits ∧ linvert lit ∉ c2.lits
      · exact Or.inr hc2
      · exfalso
        simp only [resolve, if_neg hc1, if_neg hc2] at h
        by_cases hk1 : lit ∉ (if lit ∈ c1.lits then c1.lits else c2.lits)
        · rw [if_pos hk1] at h
          simp at h
        · rw [if_neg hk1] at h
          by_cases hk2 :
              linvert lit ∉ (if linvert lit ∈ c1.lits then c1.lits else c2.lits)
          · rw [if_pos hk2] at h
            simp at h
          · rw [if_neg hk2] at h
            simp only [mkCnfClause] at h
            generalize ((if lit ∈ c1.lits then c1.lits else c2.lits).erase lit ∪
              (if linvert lit ∈ c1.lits then c1.lits else c2.lits).erase
                (linvert lit)) = S at h
            by_cases hv : ∀ l ∈ S, linvert l ∉ S
            · rw [dif_pos hv] at h
              simp at h
            · rw [dif_neg hv] at h
              simp at h
  · intro h
    rcases h with ⟨ha, hb⟩ | ⟨ha, hb⟩
    · have hcond : lit ∉ c1.lits ∧ linvert lit ∉ c1.lits := ⟨ha, hb⟩
      simp only [resolve, if_pos hcond]
    · by_cases hc1 : lit ∉ c1.lits ∧ linvert lit ∉ c1.lits
      · simp only [resolve, if_pos hc1]
      · have hcond : lit ∉ c2.lits ∧ linvert lit ∉ c2.lits := ⟨ha, hb⟩
        simp only [resolve, if_neg hc1, if_pos hcond]
  · intro h1 h2
    have hv1 : linvert lit ∉ c1.lits := c1.valid lit h1
    have hn1 : ¬(lit ∉ c1.lits ∧ linvert lit ∉ c1.lits) := fun hh => hh.1 h1
    have hn2 : ¬(lit ∉ c2.lits ∧ linvert lit ∉ c2.lits) := fun hh => hh.2 h2
    simp only [resolve, if_neg hn1, if_neg hn2, if_pos h1, if_neg hv1,
      if_neg (not_not_intro h1), if_neg (not_not_intro h2)]
  · intro h1 h2
    have hl1 : lit ∉ c1.lits := by
      intro hmem
      exact (c1.valid lit hmem) h1
    have hn1 : ¬(lit ∉ c1.lits ∧ linvert lit ∉ c1.lits) := fun hh => hh.2 h1
    have hn2 : ¬(lit ∉ c2.lits ∧ linvert lit ∉ c2.lits) := fun hh => hh.1 h2
    simp only [resolve, if_neg hn1, if_neg hn2, if_neg hl1, if_pos h1,
      if_neg (not_not_intro h2), if_neg (not_not_intro h1)]

/-- C8 witness: the amended theorem applied to resolving (A or B) with
    (not A or C) on A, which yields (B or C). -/
theorem resolve_characterisation_witness :
    ((Lit.mk "A" false) ∈ cwAB.lits) ∧ (linvert (Lit.mk "A" false) ∈ cwNAC.lits) ∧
    resolve cwAB cwNAC (Lit.mk "A" false) =
      mkCnfClause ((cwAB.lits.erase (Lit.mk "A" false)) ∪
        (cwNAC.lits.erase (linvert (Lit.mk "A" false)))) ∧
    resolveLits (resolve cwAB cwNAC (Lit.mk "A" false)) =
      some {⟨"B", false⟩, ⟨"C", false⟩} :=
  ⟨by decide, by decide,
    (resolve_characterisation cwAB cwNAC ⟨"A", false⟩).2.1 (by decide) (by decide),
    by decide⟩

/-- C8 counterexample: resolving the clause (not A) with the clause (A) on the
    literal A succeeds with the empty clause even though A is absent from the
    first clause - no CnfResolveError is raised, because the guard also accepts a
    clause containing only the negation. -/
theorem resolve_succeeds_with_literal_absent :
    decide ((Lit.mk "A" false) ∈ cxNegA.lits) = false ∧
    resolveLits (resolve cxNegA cxPosA (Lit.mk "A" false)) = some ∅ :=
  ⟨by decide, by decide⟩

/-- Truthyness assignment does not touch the identifier or the polarity. -/
theorem stripVar_assignTruthyness (m : PModel) (v : PyVariable) :
    stripVar (assignTruthyness m v) = stripVar v := by
  simp only [assignTruthyness]
  split <;> rfl

/-- C9 amended: CnfClause.is_true leaves every literal's identifier and polarity
    (and hence clause equality, which sees nothing else) intact, but it rewrites
    every literal's truthyness slot to the model-derived value - the literal
    objects are mutated. resolve itself works on copies, so its operands keep
    their literals. -/
theorem is_true_preserves_identifier_polarity (lits : List PyVariable)
    (m : PModel) :
    ((is_true lits m).2).map stripVar = lits.map stripVar ∧
    (is_true lits m).2 = lits.map (assignTruthyness m) := by
  constructor
  · simp only [is_true, List.map_map]
    induction lits with
    | nil => rfl
    | cons v rest ih =>
      simp only [List.map_cons, Function.comp_apply, stripVar_assignTruthyness,
        List.map_map] at ih ⊢
      rw [ih]
  · rfl

/-- C9 counterexample: evaluating the one-literal clause A under the model
    assigning A the value True returns True but hands back a literal list that
    differs from the input - the truthyness slot of the literal was rewritten
    from None to True. -/
theorem is_true_rewrites_truthyness :
    is_true [⟨"A", false, Option.none⟩] [("A", some true)] =
      (some true, [⟨"A", false, some true⟩]) ∧
    decide ((is_true [⟨"A", false, Option.none⟩] [("A", some true)]).2 =
      [⟨"A", false, Option.none⟩]) = false :=
  ⟨rfl, by decide⟩

/-- C10: the forward-chaining entailment check modelled from the spec answers True
    for the query Q on the Horn knowledge base A., B., A and B imply L, A and P
    imply L, B and L imply M, L and M imply P, P implies Q, and False for the
    unrelated literal X. -/
theorem pl_fc_entails_fc_example :
    pl_fc_entails 50 fcKb (pvar "Q") = some true ∧
    pl_fc_entails 50 fcKb (pvar "X") = some false :=
  ⟨rfl, rfl⟩
